import Mathlib

/-!
Verification of the provider/model identity subsystem of `ai-gateway`
(`src/config/providers.rs`): the custom bidirectional codec between the raw
textual provider configuration and the structured `ProvidersConfig` map.

Strings are embedded as `List Char`; the generic structured-text framework is
embedded by its contract (§6 of the design document): decoding consumes a
sequence of (provider token, raw record) pairs, encoding produces one.
Components of the repository that are not part of the given sources
(`types/model_id.rs`, `types/provider.rs`, the `url` collaborator and the
embedded default dataset) are modelled from the specification, as marked on
the individual definitions.
-/

set_option autoImplicit false
set_option maxRecDepth 10000

deriving instance DecidableEq for Except

namespace AiGateway

/-- Character list standing for a Rust string value. -/
abbrev Str := List Char

/-- Character list of a Lean string literal. -/
def str (s : String) : Str := s.data

/-- Does the first list start with the second one? -/
def startsWithB : Str → Str → Bool
| _, [] => true
| [], _ :: _ => false
| c :: cs, d :: ds => c = d && startsWithB cs ds

/-- Does the first list contain the second as a contiguous run? -/
def containsSubB : Str → Str → Bool
| [], sub => sub.isEmpty
| c :: cs, sub => startsWithB (c :: cs) sub || containsSubB cs sub

/-- One step of indexmap insertion: append the element unless already present
(the `IndexSet::insert` semantics: first occurrence wins, order preserved). -/
def insertIdem {α : Type} [DecidableEq α] (xs : List α) (x : α) : List α :=
  if x ∈ xs then xs else xs ++ [x]

/-- A list as collected into an `IndexSet`: first occurrences, in input order. -/
def indexSetOfList {α : Type} [DecidableEq α] (xs : List α) : List α :=
  xs.foldl insertIdem []

/-- Modelled from the spec §3/§4.1: `InferenceProvider` lives in
`src/types/provider.rs`, which is not among the given sources — a closed set of
well-known variants plus an open `named` variant.  The tests in `providers.rs`
exercise `OpenAI`, `Anthropic` and `Named "aibadgr"`. -/
inductive InferenceProvider : Type
| openai
| anthropic
| named (name : Str)
deriving DecidableEq

/-- Modelled from the spec §4.1: decoding a provider token never fails; unknown
tokens produce the open `named` variant. -/
def InferenceProvider.ofToken (tok : Str) : InferenceProvider :=
  if tok = str "openai" then .openai
  else if tok = str "anthropic" then .anthropic
  else .named tok

/-- Modelled from the spec §4.1: a provider formats back to the lowercase token
it was parsed from (`named`: the stored string verbatim). -/
def InferenceProvider.token : InferenceProvider → Str
| .openai => str "openai"
| .anthropic => str "anthropic"
| .named n => n

/-- Modelled from the spec §3 and `test_providers_config_custom_deserialize`:
a version qualifier is implicit-latest or a calendar date plus the format
string used to print it back.  The date is stored as its eight `%Y%m%d`
digits, which determine the calendar day uniquely. -/
inductive Version : Type
| implicitLatest
| date (digits : Str) (format : Str)
deriving DecidableEq

/-- Modelled from the spec §3: a model identifier scoped to one provider, with
a base name and a version qualifier. -/
structure ModelId where
  provider : InferenceProvider
  model : Str
  version : Version
deriving DecidableEq

/-- Numeric value of an ASCII digit. -/
def digitVal (c : Char) : Nat := c.toNat - 48

/-- Decimal value of a digit list. -/
def decDigits (cs : Str) : Nat := cs.foldl (fun a c => 10 * a + digitVal c) 0

def isLeapYear (y : Nat) : Bool := (y % 4 == 0 && y % 100 != 0) || y % 400 == 0

def daysInMonth (y m : Nat) : Nat :=
  if m = 2 then (if isLeapYear y then 29 else 28)
  else if m = 4 ∨ m = 6 ∨ m = 9 ∨ m = 11 then 30
  else 31

/-- Modelled from the spec §4.2 step 3: do eight digits form a valid
`YYYYMMDD` calendar date? -/
def validYmd (d8 : Str) : Bool :=
  let y := decDigits (d8.take 4)
  let m := decDigits ((d8.drop 4).take 2)
  let d := decDigits (d8.drop 6)
  decide (1 ≤ m) && decide (m ≤ 12) && decide (1 ≤ d) && decide (d ≤ daysInMonth y m)

/-- Modelled from the spec §4.2 step 2: the dated trailing pattern — a dash
followed by exactly eight ASCII digits at the end of the raw string.  Returns
the base name and the digits. -/
def dateSuffixSplit (s : Str) : Option (Str × Str) :=
  if 9 ≤ s.reverse.length ∧ (s.reverse.take 8).all Char.isDigit = true ∧
      s.reverse[8]? = some '-' then
    some ((s.reverse.drop 9).reverse, (s.reverse.take 8).reverse)
  else none

/-- Modelled from the spec §9: suffix rules are dispatched by provider variant;
Anthropic has the dated `%Y%m%d` rule, the default is no recognized suffix. -/
def hasDateSuffixRule : InferenceProvider → Bool
| .anthropic => true
| _ => false

/-- Modelled from the spec §7: failure cases of the contextual model parse. -/
inductive ParseError : Type
| invalidVersionDate (provider : InferenceProvider) (raw : Str) (digits : Str)
| emptyModelName
deriving DecidableEq

/-- Modelled from the spec §4.2: `ModelId::from_str_and_provider` lives in
`src/types/model_id.rs`, which is not among the given sources; reconstructed
from §4.2 and the expectations of `test_providers_config_custom_deserialize`. -/
def ModelId.from_str_and_provider (p : InferenceProvider) (s : Str) :
    Except ParseError ModelId :=
  match (if hasDateSuffixRule p then dateSuffixSplit s else none) with
  | some (base, digits) =>
    if validYmd digits then
      if base = [] then .error .emptyModelName
      else .ok ⟨p, base, .date digits (str "%Y%m%d")⟩
    else .error (.invalidVersionDate p s digits)
  | none =>
    if s = [] then .error .emptyModelName
    else .ok ⟨p, s, .implicitLatest⟩

/-- Modelled from the spec §4.2: print a version back as the suffix it was
parsed from. -/
def Version.suffixText : Version → Str
| .implicitLatest => []
| .date digits _ => '-' :: digits

/-- Modelled from the spec §4.2/§4.4: `Display` for `ModelId` — the base name
followed by the version suffix. -/
def ModelId.format (m : ModelId) : Str := m.model ++ m.version.suffixText

/-- Modelled from the spec §3: the external URL collaborator (`url::Url`),
reduced to what the subsystem relies on — finding the first `://` scheme
separator. -/
def schemeSplit : Str → Option (Str × Str)
| [] => none
| c :: cs =>
  if c = ':' ∧ cs.take 2 = ['/', '/'] then some ([], cs.drop 2)
  else (schemeSplit cs).map (fun p => (c :: p.1, p.2))

/-- Modelled from the spec: is the string an absolute URL (alphabetic scheme,
`://`, non-empty remainder)? -/
def validUrlStr (s : Str) : Bool :=
  match schemeSplit s with
  | some (sch, rest) => !sch.isEmpty && sch.all Char.isAlpha && !rest.isEmpty
  | none => false

/-- Modelled from the spec: the URL parser's trailing-slash normalization — an
authority with no path component gains a trailing `/`. -/
def normalizeUrl (s : Str) : Str :=
  match schemeSplit s with
  | some (_, rest) => if rest.contains '/' then s else s ++ ['/']
  | none => s

/-- Modelled from the spec: parsing an absolute URL; the stored form is the
normalized text. -/
def parseUrl (s : Str) : Option Str :=
  if validUrlStr s then some (normalizeUrl s) else none

/-- The textual per-provider record of §6: `models` list, `base-url`,
optional `version` (the shape of `RawGlobalProviderConfig` before URL parsing
and `IndexSet` collection). -/
structure RawRecord where
  models : List Str
  base_url : Str
  version : Option Str
deriving DecidableEq

/-- Decoded `GlobalProviderConfig`: model identifiers in insertion order (the
`IndexSet<ModelId>`), the parsed base URL, the optional version string. -/
structure GlobalProviderConfig where
  models : List ModelId
  base_url : Str
  version : Option Str
deriving DecidableEq

/-- The entry list of the `IndexMap` underlying `ProvidersConfig`, in
insertion order. -/
abbrev ProvidersConfig := List (InferenceProvider × GlobalProviderConfig)

/-- Modelled from the spec §7: display text of a model parse error. -/
def renderParseError : ParseError → Str
| .invalidVersionDate p raw digits =>
    str "InvalidVersionDate: provider " ++ p.token ++ str ", model " ++ raw ++
      str ", digits " ++ digits
| .emptyModelName => str "EmptyModelName: empty model name after stripping version"

/-- The error text built in `visit_map` when a model string fails the
contextual parse: `Invalid model '{model_str}' for provider {provider}: {e}`. -/
def modelErrMsg (modelStr : Str) (p : InferenceProvider) (e : ParseError) : Str :=
  str "Invalid model \x27" ++ modelStr ++ str "\x27 for provider " ++ p.token ++
    str ": " ++ renderParseError e

/-- Modelled from the spec: the URL deserializer's own error text; it mentions
only the offending string, and `visit_map` propagates it unchanged via `?`. -/
def urlErrMsg (s : Str) : Str :=
  str "invalid value: string \x22" ++ s ++ str "\x22, expected relative URL without a base"

/-- The model-conversion loop of `visit_map`: parse each raw string under the
provider, wrapping failures with provider and string, short-circuiting. -/
def parseModels (p : InferenceProvider) : List Str → Except Str (List ModelId)
| [] => .ok []
| s :: rest =>
  match ModelId.from_str_and_provider p s with
  | .error e => .error (modelErrMsg s p e)
  | .ok m => (parseModels p rest).map (fun ms => m :: ms)

/-- `IndexMap::insert`: replace the value in place when the key is present,
else append the pair at the end. -/
def indexMapInsert (m : ProvidersConfig) (k : InferenceProvider)
    (v : GlobalProviderConfig) : ProvidersConfig :=
  if (m.map Prod.fst).contains k then
    m.map (fun kv => if kv.1 = k then (k, v) else kv)
  else m ++ [(k, v)]

/-- One iteration of the `visit_map` loop body: decode the `next_value` record
(URL parse and `IndexSet` collection of the model strings are part of
`RawGlobalProviderConfig`'s deserialization) and convert each model string
under the provider decoded from the key. -/
def decodeEntry (tok : Str) (r : RawRecord) : Except Str GlobalProviderConfig :=
  match parseUrl r.base_url with
  | none => .error (urlErrMsg r.base_url)
  | some u =>
    match parseModels (InferenceProvider.ofToken tok) (indexSetOfList r.models) with
    | .error e => .error e
    | .ok ms => .ok ⟨indexSetOfList ms, u, r.version⟩

/-- The `while let Some(provider) = map.next_key()?` loop of the custom
`Deserialize` impl, accumulating into the `IndexMap`. -/
def visitMap : List (Str × RawRecord) → ProvidersConfig → Except Str ProvidersConfig
| [], acc => .ok acc
| (tok, r) :: rest, acc =>
  match decodeEntry tok r with
  | .error e => .error e
  | .ok cfg => visitMap rest (indexMapInsert acc (InferenceProvider.ofToken tok) cfg)

/-- Custom deserialization of `ProvidersConfig`, over the framework's
sequence-of-pairs contract (§6). -/
def decode (input : List (Str × RawRecord)) : Except Str ProvidersConfig :=
  visitMap input []

/-- One entry of the custom `Serialize` impl: the models reformatted to text
and collected into an `IndexSet<String>`, the URL text, the version unchanged
(`SerializedGlobalProviderConfig`). -/
def serializeEntry (cfg : GlobalProviderConfig) : RawRecord :=
  ⟨indexSetOfList (cfg.models.map ModelId.format), cfg.base_url, cfg.version⟩

/-- The custom `Serialize` impl of `ProvidersConfig`, down to the framework's
sequence-of-pairs contract. -/
def serializeRaw (pc : ProvidersConfig) : List (Str × RawRecord) :=
  pc.map (fun e => (e.1.token, serializeEntry e.2))

/-- A field value in the emitted record: a scalar string or a string list. -/
inductive FieldVal : Type
| s (v : Str)
| l (vs : List Str)
deriving DecidableEq

/-- Field-by-field emission of a serialized record
(`SerializedGlobalProviderConfig`): the `version` field is skipped entirely
when absent (`skip_serializing_if = "Option::is_none"`). -/
def emitFields (r : RawRecord) : List (Str × FieldVal) :=
  [(str "models", .l r.models), (str "base-url", .s r.base_url)] ++
    (match r.version with
     | none => []
     | some v => [(str "version", .s v)])

/-- Modelled from the spec §4.5/§8.3 and `test_aibadgr_provider_loads`: the
embedded `config/embedded/providers.yaml` is not among the given sources;
reconstructed as a dataset containing the providers the in-file tests rely
on. -/
def providersYamlEmbedded : List (Str × RawRecord) := [
  (str "openai",
    ⟨[str "gpt-4", str "gpt-4-turbo", str "gpt-4o", str "gpt-4o-mini"],
     str "https://api.openai.com", none⟩),
  (str "anthropic",
    ⟨[str "claude-3-opus-20240229", str "claude-3-sonnet-20240229"],
     str "https://api.anthropic.com", some (str "2023-06-01")⟩),
  (str "aibadgr",
    ⟨[str "basic", str "normal", str "premium"],
     str "https://aibadgr.com/api/v1", none⟩)]

/-- `ProvidersConfig::default`: decode the embedded dataset; the `.expect`
panic branch is modelled by the empty-map fallback, shown unreachable in the
default-dataset theorem. -/
def defaultProvidersConfig : ProvidersConfig :=
  ((decode providersYamlEmbedded).toOption).getD []

/-- The concrete two-provider input of §8.6. -/
def sampleInput : List (Str × RawRecord) := [
  (str "openai",
    ⟨[str "gpt-4", str "gpt-4-turbo"], str "https://api.openai.com", none⟩),
  (str "anthropic",
    ⟨[str "claude-3-opus-20240229"], str "https://api.anthropic.com",
     some (str "2023-06-01")⟩)]

/-- The decoded form §8.6 expects. -/
def sampleExpected : ProvidersConfig := [
  (.openai,
    ⟨[⟨.openai, str "gpt-4", .implicitLatest⟩,
      ⟨.openai, str "gpt-4-turbo", .implicitLatest⟩],
     str "https://api.openai.com/", none⟩),
  (.anthropic,
    ⟨[⟨.anthropic, str "claude-3-opus", .date (str "20240229") (str "%Y%m%d")⟩],
     str "https://api.anthropic.com/", some (str "2023-06-01")⟩)]

/-- Invariants of a decoded map entry, used to relate decode and encode: the
provider key reparses from its token, the model set is duplicate-free and each
member reparses from its formatted text under the entry's provider, and the
base URL reparses to itself. -/
def WFentry (e : InferenceProvider × GlobalProviderConfig) : Prop :=
  InferenceProvider.ofToken e.1.token = e.1 ∧
  e.2.models.Nodup ∧
  (∀ m ∈ e.2.models, ModelId.from_str_and_provider e.1 (ModelId.format m) = .ok m) ∧
  parseUrl e.2.base_url = some e.2.base_url

/-- Invariants of a decoded `ProvidersConfig`: unique keys, well-formed entries. -/
def WFconfig (pc : ProvidersConfig) : Prop :=
  (pc.map Prod.fst).Nodup ∧ ∀ e ∈ pc, WFentry e

/-- An input whose provider key repeats with two different records. -/
def dupKeyInput : List (Str × RawRecord) := [
  (str "openai", ⟨[str "gpt-4"], str "https://a.com", none⟩),
  (str "openai", ⟨[str "gpt-5"], str "https://b.com", none⟩)]

/-- An input whose base-url field is not an absolute URL. -/
def badUrlInput : List (Str × RawRecord) := [
  (str "openai", ⟨[str "gpt-4"], str "notaurl", none⟩)]

/-- A record whose second model string carries an invalid calendar date. -/
def badDateRecord : RawRecord :=
  ⟨[str "claude-3-opus-20240229", str "claude-3-haiku-20240230"],
   str "https://api.anthropic.com", none⟩

/-- A record whose models list contains the empty string. -/
def emptyModelRecord : RawRecord :=
  ⟨[str ""], str "https://api.openai.com", none⟩

/-- A record listing the same model string twice. -/
def dupModelRecord : RawRecord :=
  ⟨[str "gpt-4", str "gpt-4"], str "https://a.com", none⟩

/-- A list starts with itself, whatever follows. -/
theorem startsWithB_append_self (s t : Str) : startsWithB (s ++ t) s = true := by
  induction s with
  | nil => cases t <;> rfl
  | cons c cs ih => simp [startsWithB, ih]

/-- A starting run is a contained run. -/
theorem containsSubB_of_startsWithB {h s : Str} (hs : startsWithB h s = true) :
    containsSubB h s = true := by
  cases h with
  | nil =>
    cases s with
    | nil => rfl
    | cons d ds => simp [startsWithB] at hs
  | cons c cs => simp [containsSubB, hs]

/-- Containment is stable under prepending. -/
theorem containsSubB_append_left (h : Str) {t s : Str}
    (ht : containsSubB t s = true) : containsSubB (h ++ t) s = true := by
  induction h with
  | nil => simpa using ht
  | cons c cs ih => simp [containsSubB, ih]

/-- A run between two contexts is contained. -/
theorem containsSubB_sandwich (l s r : Str) : containsSubB (l ++ (s ++ r)) s = true :=
  containsSubB_append_left l (containsSubB_of_startsWithB (startsWithB_append_self s r))

/-- Membership after one idempotent insertion. -/
theorem mem_insertIdem {α : Type} [DecidableEq α] {xs : List α} {x a : α} :
    a ∈ insertIdem xs x ↔ a ∈ xs ∨ a = x := by
  unfold insertIdem
  split
  · next hx =>
      refine ⟨fun h => Or.inl h, ?_⟩
      rintro (h | rfl)
      · exact h
      · exact hx
  · simp

/-- Idempotent insertion preserves freedom from duplicates. -/
theorem nodup_insertIdem {α : Type} [DecidableEq α] {xs : List α} (x : α)
    (h : xs.Nodup) : (insertIdem xs x).Nodup := by
  unfold insertIdem
  split
  · exact h
  · next hx => simp [List.nodup_append, h, hx]

/-- Folding idempotent insertions preserves freedom from duplicates. -/
theorem nodup_foldl_insertIdem {α : Type} [DecidableEq α] (xs : List α) :
    ∀ acc : List α, acc.Nodup → (xs.foldl insertIdem acc).Nodup := by
  induction xs with
  | nil => exact fun acc h => h
  | cons x xs ih => exact fun acc h => ih (insertIdem acc x) (nodup_insertIdem x h)

/-- Membership through the fold of idempotent insertions. -/
theorem mem_foldl_insertIdem {α : Type} [DecidableEq α] (xs : List α) :
    ∀ (acc : List α) (a : α), a ∈ xs.foldl insertIdem acc ↔ a ∈ acc ∨ a ∈ xs := by
  induction xs with
  | nil => simp
  | cons x xs ih =>
    intro acc a
    simp only [List.foldl_cons, ih, mem_insertIdem, List.mem_cons]
    constructor
    · rintro ((h | rfl) | h)
      · exact Or.inl h
      · exact Or.inr (Or.inl rfl)
      · exact Or.inr (Or.inr h)
    · rintro (h | rfl | h)
      · exact Or.inl (Or.inl h)
      · exact Or.inl (Or.inr rfl)
      · exact Or.inr h

/-- On a duplicate-free list the fold of idempotent insertions appends. -/
theorem foldl_insertIdem_of_nodup {α : Type} [DecidableEq α] {xs : List α}
    (hx : xs.Nodup) :
    ∀ acc : List α, (∀ a ∈ xs, a ∉ acc) → xs.foldl insertIdem acc = acc ++ xs := by
  induction xs with
  | nil => simp
  | cons x xs ih =>
    intro acc hd
    have hx' : xs.Nodup := (List.nodup_cons.mp hx).2
    have hxa : x ∉ acc := hd x (List.mem_cons_self x xs)
    have : insertIdem acc x = acc ++ [x] := by simp [insertIdem, hxa]
    rw [List.foldl_cons, this, ih hx' (acc ++ [x])]
    · simp
    · intro a ha
      simp only [List.mem_append, List.mem_singleton]
      rintro (h | rfl)
      · exact hd a (List.mem_cons_of_mem x ha) h
      · exact (List.nodup_cons.mp hx).1 ha

/-- IndexSet collection yields a duplicate-free list. -/
theorem indexSetOfList_nodup {α : Type} [DecidableEq α] (xs : List α) :
    (indexSetOfList xs).Nodup :=
  nodup_foldl_insertIdem xs [] List.nodup_nil

/-- IndexSet collection preserves membership. -/
theorem mem_indexSetOfList {α : Type} [DecidableEq α] {xs : List α} {a : α} :
    a ∈ indexSetOfList xs ↔ a ∈ xs := by
  unfold indexSetOfList
  rw [mem_foldl_insertIdem]
  simp

/-- IndexSet collection fixes duplicate-free lists. -/
theorem indexSetOfList_of_nodup {α : Type} [DecidableEq α] {xs : List α}
    (h : xs.Nodup) : indexSetOfList xs = xs := by
  unfold indexSetOfList
  rw [foldl_insertIdem_of_nodup h [] (by simp)]
  simp

/-- IndexSet collection is idempotent. -/
theorem indexSetOfList_idem {α : Type} [DecidableEq α] (xs : List α) :
    indexSetOfList (indexSetOfList xs) = indexSetOfList xs :=
  indexSetOfList_of_nodup (indexSetOfList_nodup xs)

/-- Decoding the token printed for a decoded provider gives the provider back. -/
theorem ofToken_token (tok : Str) :
    InferenceProvider.ofToken (InferenceProvider.ofToken tok).token =
      InferenceProvider.ofToken tok := by
  by_cases h1 : tok = str "openai"
  · subst h1; decide
  · by_cases h2 : tok = str "anthropic"
    · subst h2; decide
    · simp [InferenceProvider.ofToken, h1, h2, InferenceProvider.token]

/-- Shape of a successful dated-suffix split: the input is the base, a dash and
eight digits. -/
theorem dateSuffixSplit_eq {s b d : Str} (h : dateSuffixSplit s = some (b, d)) :
    s = b ++ '-' :: d ∧ d.length = 8 ∧ d.all Char.isDigit = true := by
  unfold dateSuffixSplit at h
  split at h
  · next hc =>
      obtain ⟨hlen, hdig, hsep⟩ := hc
      injection h with h'
      have hb : (s.reverse.drop 9).reverse = b := congrArg Prod.fst h'
      have hd : (s.reverse.take 8).reverse = d := congrArg Prod.snd h'
      have h8 : 8 < s.reverse.length := by omega
      have hget : s.reverse[8] = '-' := by
        have := List.getElem?_eq_some.mp hsep
        exact this.choose_spec
      have hdecomp : s.reverse = s.reverse.take 8 ++ ('-' :: s.reverse.drop 9) := by
        conv_lhs => rw [← List.take_append_drop 8 s.reverse]
        congr 1
        rw [List.drop_eq_getElem_cons h8, hget]
      refine ⟨?_, ?_, ?_⟩
      · calc s = s.reverse.reverse := (List.reverse_reverse s).symm
        _ = (s.reverse.take 8 ++ ('-' :: s.reverse.drop 9)).reverse := by rw [← hdecomp]
        _ = ('-' :: s.reverse.drop 9).reverse ++ (s.reverse.take 8).reverse := by
              rw [List.reverse_append]
        _ = ((s.reverse.drop 9).reverse ++ ['-']) ++ (s.reverse.take 8).reverse := by
              rw [List.reverse_cons]
        _ = b ++ '-' :: d := by rw [hb, hd, List.append_assoc]; rfl
      · rw [← hd, List.length_reverse, List.length_take]
        omega
      · rw [← hd, List.all_reverse]
        exact hdig
  · exact absurd h (by simp)

/-- A successful contextual parse formats back to the exact input string, and
the identifier belongs to the context provider. -/
theorem from_str_format {p : InferenceProvider} {s : Str} {m : ModelId}
    (h : ModelId.from_str_and_provider p s = .ok m) :
    ModelId.format m = s ∧ m.provider = p := by
  unfold ModelId.from_str_and_provider at h
  split at h
  · next base digits heq =>
      have hsplit : dateSuffixSplit s = some (base, digits) := by
        by_cases hr : hasDateSuffixRule p = true
        · rwa [if_pos hr] at heq
        · rw [if_neg hr] at heq; exact absurd heq (by simp)
      split at h
      · split at h
        · exact absurd h (by simp)
        · injection h with hm
          subst hm
          obtain ⟨hs, _, _⟩ := dateSuffixSplit_eq hsplit
          refine ⟨?_, rfl⟩
          simp [ModelId.format, Version.suffixText, hs]
      · exact absurd h (by simp)
  · split at h
    · exact absurd h (by simp)
    · injection h with hm
      subst hm
      exact ⟨by simp [ModelId.format, Version.suffixText], rfl⟩

/-- An empty raw string fails the contextual parse with `EmptyModelName`, for
every provider. -/
theorem from_str_nil (p : InferenceProvider) :
    ModelId.from_str_and_provider p [] = .error .emptyModelName := by
  cases p <;> rfl

/-- Shape of a successful scheme split. -/
theorem schemeSplit_eq : ∀ {s a b : Str},
    schemeSplit s = some (a, b) → s = a ++ ':' :: '/' :: '/' :: b := by
  intro s
  induction s with
  | nil => intro a b h; simp [schemeSplit] at h
  | cons c cs ih =>
    intro a b h
    simp only [schemeSplit] at h
    split at h
    · next hc =>
        obtain ⟨hc1, hc2⟩ := hc
        injection h with h'
        have ha : ([] : Str) = a := congrArg Prod.fst h'
        have hb : cs.drop 2 = b := congrArg Prod.snd h'
        subst hc1
        rw [← ha, ← hb, List.nil_append]
        conv_lhs => rw [← List.take_append_drop 2 cs, hc2]
        rfl
    · rcases Option.map_eq_some'.mp h with ⟨⟨p1, p2⟩, hp, hpe⟩
      have ha : c :: p1 = a := congrArg Prod.fst hpe
      have hb : p2 = b := congrArg Prod.snd hpe
      rw [← ha, ← hb]
      have := ih hp
      rw [List.cons_append, ← this]

/-- An all-alphabetic scheme followed by `://` splits at that separator. -/
theorem schemeSplit_of_alpha : ∀ {a : Str}, a.all Char.isAlpha = true →
    ∀ b : Str, schemeSplit (a ++ ':' :: '/' :: '/' :: b) = some (a, b) := by
  intro a
  induction a with
  | nil =>
    intro _ b
    simp [schemeSplit]
  | cons x a' ih =>
    intro hx b
    rw [List.all_cons, Bool.and_eq_true] at hx
    have hne : ¬(x = ':') := by
      intro he
      rw [he] at hx
      exact absurd hx.1 (by decide)
    rw [List.cons_append]
    simp only [schemeSplit]
    rw [if_neg (by intro hc; exact hne hc.1)]
    rw [ih hx.2 b]
    rfl

/-- Equation for `validUrlStr` once the scheme split is known. -/
theorem validUrlStr_eq {s sch rest : Str} (hss : schemeSplit s = some (sch, rest)) :
    validUrlStr s = (!sch.isEmpty && sch.all Char.isAlpha && !rest.isEmpty) := by
  unfold validUrlStr
  rw [hss]

/-- A string with no scheme separator is not a valid URL. -/
theorem validUrlStr_none {s : Str} (hss : schemeSplit s = none) :
    validUrlStr s = false := by
  unfold validUrlStr
  rw [hss]

/-- Equation for `normalizeUrl` once the scheme split is known. -/
theorem normalizeUrl_eq {s sch rest : Str} (hss : schemeSplit s = some (sch, rest)) :
    normalizeUrl s = if rest.contains '/' = true then s else s ++ ['/'] := by
  unfold normalizeUrl
  rw [hss]

/-- The stored form of a parsed URL parses back to itself (normalization is
idempotent and preserves validity). -/
theorem parseUrl_roundtrip {s u : Str} (h : parseUrl s = some u) :
    parseUrl u = some u := by
  unfold parseUrl at h
  by_cases hb : validUrlStr s = true
  · rw [if_pos hb] at h
    injection h with hu
    cases hss : schemeSplit s with
    | none => rw [validUrlStr_none hss] at hb; exact absurd hb (by simp)
    | some p =>
      obtain ⟨sch, rest⟩ := p
      rw [validUrlStr_eq hss, Bool.and_eq_true, Bool.and_eq_true] at hb
      obtain ⟨⟨hsch, halpha⟩, hrest⟩ := hb
      have hs_eq : s = sch ++ ':' :: '/' :: '/' :: rest := schemeSplit_eq hss
      subst hu
      rw [normalizeUrl_eq hss]
      by_cases hcont : rest.contains '/' = true
      · rw [if_pos hcont]
        have hvs : validUrlStr s = true := by
          rw [validUrlStr_eq hss]
          simp [hsch, halpha, hrest]
        unfold parseUrl
        rw [if_pos hvs, normalizeUrl_eq hss, if_pos hcont]
      · rw [if_neg hcont]
        have hsplit2 : schemeSplit (s ++ ['/']) = some (sch, rest ++ ['/']) := by
          rw [hs_eq, List.append_assoc]
          have hshape : (':' :: '/' :: '/' :: rest) ++ ['/'] =
              ':' :: '/' :: '/' :: (rest ++ ['/']) := by simp
          rw [hshape]
          exact schemeSplit_of_alpha halpha (rest ++ ['/'])
        have hcont2 : (rest ++ ['/']).contains '/' = true := by
          simp [List.contains, List.elem_iff]
        have hvs2 : validUrlStr (s ++ ['/']) = true := by
          rw [validUrlStr_eq hsplit2]
          simp [hsch, halpha]
        unfold parseUrl
        rw [if_pos hvs2, normalizeUrl_eq hsplit2, if_pos hcont2]
  · rw [if_neg hb] at h
    exact absurd h (by simp)

/-- A successful model-conversion loop relates inputs and outputs pairwise. -/
theorem parseModels_forall₂ {p : InferenceProvider} :
    ∀ {ss : List Str} {ms : List ModelId}, parseModels p ss = .ok ms →
      List.Forall₂ (fun s m => ModelId.from_str_and_provider p s = .ok m) ss ms := by
  intro ss
  induction ss with
  | nil =>
    intro ms h
    simp only [parseModels] at h
    injection h with h'
    rw [← h']
    exact List.Forall₂.nil
  | cons s rest ih =>
    intro ms h
    simp only [parseModels] at h
    cases hm : ModelId.from_str_and_provider p s with
    | error e => rw [hm] at h; exact absurd h (by simp)
    | ok m =>
      rw [hm] at h
      cases hr : parseModels p rest with
      | error e => rw [hr] at h; exact absurd h (by simp [Except.map])
      | ok ms' =>
        rw [hr] at h
        injection h with h'
        rw [← h']
        exact List.Forall₂.cons hm (ih hr)

/-- The converse: a pairwise-related conversion succeeds with those outputs. -/
theorem parseModels_of_forall₂ {p : InferenceProvider} :
    ∀ {ss : List Str} {ms : List ModelId},
      List.Forall₂ (fun s m => ModelId.from_str_and_provider p s = .ok m) ss ms →
      parseModels p ss = .ok ms := by
  intro ss ms h
  induction h with
  | nil => rfl
  | cons hr _ ih => simp [parseModels, hr, ih, Except.map]

/-- The model-conversion loop stops at the first failing string, wrapping the
error with the string and the provider. -/
theorem parseModels_first_error {p : InferenceProvider} {s : Str} {e : ParseError} :
    ∀ good : List Str, (∀ g ∈ good, ∃ m, ModelId.from_str_and_provider p g = .ok m) →
      ModelId.from_str_and_provider p s = .error e →
      ∀ tail : List Str,
        parseModels p (good ++ s :: tail) = .error (modelErrMsg s p e) := by
  intro good
  induction good with
  | nil =>
    intro _ hs tail
    simp [parseModels, hs]
  | cons g good' ih =>
    intro hg hs tail
    obtain ⟨m, hm⟩ := hg g (List.mem_cons_self g good')
    have hrec := ih (fun g' h' => hg g' (List.mem_cons_of_mem g h')) hs tail
    simp [parseModels, hm, hrec, Except.map]

/-- Left-to-right membership extraction from a pairwise relation. -/
theorem forall₂_mem_left {α β : Type} {R : α → β → Prop} :
    ∀ {l1 : List α} {l2 : List β}, List.Forall₂ R l1 l2 →
      ∀ {a : α}, a ∈ l1 → ∃ b ∈ l2, R a b := by
  intro l1 l2 h
  induction h with
  | nil => intro a ha; exact absurd ha (by simp)
  | cons hr _ ih =>
    intro a ha
    rcases List.mem_cons.mp ha with rfl | ha'
    · exact ⟨_, List.mem_cons_self _ _, hr⟩
    · obtain ⟨b, hb, hab⟩ := ih ha'
      exact ⟨b, List.mem_cons_of_mem _ hb, hab⟩

/-- Right-to-left membership extraction from a pairwise relation. -/
theorem forall₂_mem_right {α β : Type} {R : α → β → Prop} :
    ∀ {l1 : List α} {l2 : List β}, List.Forall₂ R l1 l2 →
      ∀ {b : β}, b ∈ l2 → ∃ a ∈ l1, R a b := by
  intro l1 l2 h
  induction h with
  | nil => intro b hb; exact absurd hb (by simp)
  | cons hr _ ih =>
    intro b hb
    rcases List.mem_cons.mp hb with rfl | hb'
    · exact ⟨_, List.mem_cons_self _ _, hr⟩
    · obtain ⟨a, ha, hab⟩ := ih hb'
      exact ⟨a, List.mem_cons_of_mem _ ha, hab⟩

/-- Outputs of a successful conversion format back to the inputs, in order. -/
theorem forall₂_map_format {p : InferenceProvider} :
    ∀ {ss : List Str} {ms : List ModelId},
      List.Forall₂ (fun s m => ModelId.from_str_and_provider p s = .ok m) ss ms →
      ms.map ModelId.format = ss := by
  intro ss ms h
  induction h with
  | nil => rfl
  | cons hr _ ih =>
    rw [List.map_cons, ih, (from_str_format hr).1]

/-- Pointwise reparse facts give the pairwise relation on the formatted list. -/
theorem forall₂_of_format {p : InferenceProvider} :
    ∀ ms : List ModelId,
      (∀ m ∈ ms, ModelId.from_str_and_provider p (ModelId.format m) = .ok m) →
      List.Forall₂ (fun s m => ModelId.from_str_and_provider p s = .ok m)
        (ms.map ModelId.format) ms := by
  intro ms
  induction ms with
  | nil => intro _; exact List.Forall₂.nil
  | cons m ms' ih =>
    intro h
    exact List.Forall₂.cons (h m (List.mem_cons_self m ms'))
      (ih fun m' hm' => h m' (List.mem_cons_of_mem m hm'))

/-- Keys after an `IndexMap` insertion. -/
theorem indexMapInsert_keys (m : ProvidersConfig) (k : InferenceProvider)
    (v : GlobalProviderConfig) :
    (indexMapInsert m k v).map Prod.fst =
      if (m.map Prod.fst).contains k then m.map Prod.fst
      else m.map Prod.fst ++ [k] := by
  unfold indexMapInsert
  split
  · next hc =>
      rw [List.map_map]
      apply List.map_congr_left
      intro kv _
      by_cases hk : kv.1 = k
      · simp [hk]
      · simp [hk]
  · simp

/-- Inserting an absent key appends the pair. -/
theorem indexMapInsert_not_mem {m : ProvidersConfig} {k : InferenceProvider}
    (v : GlobalProviderConfig) (h : ¬(m.map Prod.fst).contains k = true) :
    indexMapInsert m k v = m ++ [(k, v)] := by
  unfold indexMapInsert
  rw [if_neg h]

/-- Every entry after insertion is an old entry or the inserted pair. -/
theorem mem_indexMapInsert {m : ProvidersConfig} {k : InferenceProvider}
    {v : GlobalProviderConfig} {e : InferenceProvider × GlobalProviderConfig}
    (h : e ∈ indexMapInsert m k v) : e ∈ m ∨ e = (k, v) := by
  unfold indexMapInsert at h
  split at h
  · rcases List.mem_map.mp h with ⟨kv, hkv, he⟩
    by_cases hk : kv.1 = k
    · rw [if_pos hk] at he; exact Or.inr he.symm
    · rw [if_neg hk] at he; exact Or.inl (he ▸ hkv)
  · rcases List.mem_append.mp h with h' | h'
    · exact Or.inl h'
    · exact Or.inr (List.mem_singleton.mp h')

/-- Boolean containment agrees with membership. -/
theorem contains_iff {α : Type} [DecidableEq α] {l : List α} {a : α} :
    l.contains a = true ↔ a ∈ l := by
  simp [List.contains, List.elem_iff]

/-- Shape of a successful entry decode. -/
theorem decodeEntry_ok {tok : Str} {r : RawRecord} {cfg : GlobalProviderConfig}
    (h : decodeEntry tok r = .ok cfg) :
    ∃ u ms, parseUrl r.base_url = some u ∧
      parseModels (InferenceProvider.ofToken tok) (indexSetOfList r.models) = .ok ms ∧
      cfg = ⟨indexSetOfList ms, u, r.version⟩ := by
  unfold decodeEntry at h
  split at h
  · exact absurd h (by simp)
  · next u hu =>
      split at h
      · exact absurd h (by simp)
      · next ms hms =>
          injection h with h'
          exact ⟨u, ms, hu, hms, h'.symm⟩

/-- An invalid base URL makes the entry decode fail with the URL error. -/
theorem decodeEntry_url_error {tok : Str} {r : RawRecord}
    (h : parseUrl r.base_url = none) :
    decodeEntry tok r = .error (urlErrMsg r.base_url) := by
  unfold decodeEntry
  rw [h]

/-- A failing model conversion makes the entry decode fail with that error. -/
theorem decodeEntry_models_error {tok : Str} {r : RawRecord} {e : Str}
    (hu : (parseUrl r.base_url).isSome = true)
    (hm : parseModels (InferenceProvider.ofToken tok) (indexSetOfList r.models) = .error e) :
    decodeEntry tok r = .error e := by
  obtain ⟨u, hu'⟩ := Option.isSome_iff_exists.mp hu
  unfold decodeEntry
  rw [hu']
  show (match parseModels (InferenceProvider.ofToken tok) (indexSetOfList r.models) with
    | Except.error e => Except.error e
    | Except.ok ms =>
        Except.ok (GlobalProviderConfig.mk (indexSetOfList ms) u r.version)) =
    Except.error e
  rw [hm]

/-- Building a successful entry decode from its parts. -/
theorem decodeEntry_ok_of {tok : Str} {r : RawRecord} {u : Str} {ms : List ModelId}
    (hu : parseUrl r.base_url = some u)
    (hm : parseModels (InferenceProvider.ofToken tok) (indexSetOfList r.models) = .ok ms) :
    decodeEntry tok r = .ok ⟨indexSetOfList ms, u, r.version⟩ := by
  unfold decodeEntry
  rw [hu]
  show (match parseModels (InferenceProvider.ofToken tok) (indexSetOfList r.models) with
    | Except.error e => Except.error e
    | Except.ok ms =>
        Except.ok (GlobalProviderConfig.mk (indexSetOfList ms) u r.version)) =
    Except.ok (GlobalProviderConfig.mk (indexSetOfList ms) u r.version)
  rw [hm]

/-- `visit_map` step on a successfully decoded entry. -/
theorem visitMap_cons_ok {tok : Str} {r : RawRecord} {cfg : GlobalProviderConfig}
    (rest : List (Str × RawRecord)) (acc : ProvidersConfig)
    (h : decodeEntry tok r = .ok cfg) :
    visitMap ((tok, r) :: rest) acc =
      visitMap rest (indexMapInsert acc (InferenceProvider.ofToken tok) cfg) := by
  have hstep : visitMap ((tok, r) :: rest) acc =
      match decodeEntry tok r with
      | .error e => .error e
      | .ok cfg => visitMap rest (indexMapInsert acc (InferenceProvider.ofToken tok) cfg) :=
    rfl
  rw [hstep, h]

/-- `visit_map` step on a failing entry. -/
theorem visitMap_cons_error {tok : Str} {r : RawRecord} {e : Str}
    (rest : List (Str × RawRecord)) (acc : ProvidersConfig)
    (h : decodeEntry tok r = .error e) :
    visitMap ((tok, r) :: rest) acc = .error e := by
  have hstep : visitMap ((tok, r) :: rest) acc =
      match decodeEntry tok r with
      | .error e => .error e
      | .ok cfg => visitMap rest (indexMapInsert acc (InferenceProvider.ofToken tok) cfg) :=
    rfl
  rw [hstep, h]

/-- `visit_map` over an input split after a successfully decoded run. -/
theorem visitMap_append_ok : ∀ {pre : List (Str × RawRecord)}
    {acc acc' : ProvidersConfig}, visitMap pre acc = .ok acc' →
    ∀ rest, visitMap (pre ++ rest) acc = visitMap rest acc' := by
  intro pre
  induction pre with
  | nil =>
    intro acc acc' h rest
    injection h with h'
    rw [List.nil_append, h']
  | cons er pre' ih =>
    intro acc acc' h rest
    obtain ⟨tok, r⟩ := er
    cases hd : decodeEntry tok r with
    | error e =>
      rw [visitMap_cons_error pre' acc hd] at h
      exact absurd h (by simp)
    | ok cfg =>
      rw [visitMap_cons_ok pre' acc hd] at h
      rw [List.cons_append, visitMap_cons_ok (pre' ++ rest) acc hd]
      exact ih h rest

/-- A successful `visit_map` run with pairwise-distinct decoded keys appends
the decoded entries to the accumulator, relating them pairwise to the input. -/
theorem visitMap_entries : ∀ {input : List (Str × RawRecord)}
    {acc pc : ProvidersConfig}, visitMap input acc = .ok pc →
    (input.map (fun e => InferenceProvider.ofToken e.1)).Nodup →
    (∀ e ∈ input, InferenceProvider.ofToken e.1 ∉ acc.map Prod.fst) →
    ∃ rest, pc = acc ++ rest ∧
      List.Forall₂ (fun e q => q.1 = InferenceProvider.ofToken e.1 ∧
        decodeEntry e.1 e.2 = .ok q.2) input rest := by
  intro input
  induction input with
  | nil =>
    intro acc pc h _ _
    injection h with h'
    exact ⟨[], by rw [← h']; simp, List.Forall₂.nil⟩
  | cons er input' ih =>
    intro acc pc h hnd hdisj
    obtain ⟨tok, r⟩ := er
    cases hd : decodeEntry tok r with
    | error e =>
      rw [visitMap_cons_error input' acc hd] at h
      exact absurd h (by simp)
    | ok cfg =>
      rw [visitMap_cons_ok input' acc hd] at h
      have hknotin : InferenceProvider.ofToken tok ∉ acc.map Prod.fst :=
        hdisj (tok, r) (List.mem_cons_self _ _)
      have hcontains : ¬(acc.map Prod.fst).contains (InferenceProvider.ofToken tok) = true :=
        fun hc => hknotin (contains_iff.mp hc)
      rw [indexMapInsert_not_mem cfg hcontains] at h
      rw [List.map_cons, List.nodup_cons] at hnd
      obtain ⟨hknot, hnd'⟩ := hnd
      have hdisj' : ∀ e ∈ input',
          InferenceProvider.ofToken e.1 ∉
            (acc ++ [(InferenceProvider.ofToken tok, cfg)]).map Prod.fst := by
        intro e he
        rw [List.map_append]
        intro hmem
        rcases List.mem_append.mp hmem with hm | hm
        · exact hdisj e (List.mem_cons_of_mem _ he) hm
        · have heq : InferenceProvider.ofToken e.1 = InferenceProvider.ofToken tok := by
            simpa using hm
          exact hknot (heq ▸ List.mem_map_of_mem _ he)
      obtain ⟨rest', hpc, hf⟩ := ih h hnd' hdisj'
      refine ⟨(InferenceProvider.ofToken tok, cfg) :: rest', ?_,
        List.Forall₂.cons ⟨rfl, hd⟩ hf⟩
      rw [hpc, List.append_assoc]
      rfl

/-- A successfully decoded entry satisfies the invariants. -/
theorem decodeEntry_WF {tok : Str} {r : RawRecord} {cfg : GlobalProviderConfig}
    (h : decodeEntry tok r = .ok cfg) :
    WFentry (InferenceProvider.ofToken tok, cfg) := by
  obtain ⟨u, ms, hu, hms, hcfg⟩ := decodeEntry_ok h
  subst hcfg
  refine ⟨ofToken_token tok, indexSetOfList_nodup ms, ?_, parseUrl_roundtrip hu⟩
  intro m hm
  have hm' : m ∈ ms := mem_indexSetOfList.mp hm
  obtain ⟨s, _, hsm⟩ := forall₂_mem_right (parseModels_forall₂ hms) hm'
  have hfmt := (from_str_format hsm).1
  rw [hfmt]
  exact hsm

/-- A successful `visit_map` run preserves the map invariants. -/
theorem visitMap_WF : ∀ {input : List (Str × RawRecord)}
    {acc pc : ProvidersConfig}, visitMap input acc = .ok pc →
    WFconfig acc → WFconfig pc := by
  intro input
  induction input with
  | nil =>
    intro acc pc h hacc
    injection h with h'
    rw [← h']
    exact hacc
  | cons er input' ih =>
    intro acc pc h hacc
    obtain ⟨tok, r⟩ := er
    cases hd : decodeEntry tok r with
    | error e =>
      rw [visitMap_cons_error input' acc hd] at h
      exact absurd h (by simp)
    | ok cfg =>
      rw [visitMap_cons_ok input' acc hd] at h
      refine ih h ⟨?_, ?_⟩
      · have hkeys := indexMapInsert_keys acc (InferenceProvider.ofToken tok) cfg
        by_cases hc : (acc.map Prod.fst).contains (InferenceProvider.ofToken tok) = true
        · rw [if_pos hc] at hkeys
          rw [hkeys]
          exact hacc.1
        · rw [if_neg hc] at hkeys
          rw [hkeys]
          have hnot : InferenceProvider.ofToken tok ∉ acc.map Prod.fst :=
            fun hmem => hc (contains_iff.mpr hmem)
          simp [List.nodup_append, hacc.1, hnot]
      · intro e he
        rcases mem_indexMapInsert he with h' | rfl
        · exact hacc.2 e h'
        · exact decodeEntry_WF hd

/-- `serializeRaw` on a cons. -/
theorem serializeRaw_cons (p : InferenceProvider) (cfg : GlobalProviderConfig)
    (pc' : ProvidersConfig) :
    serializeRaw ((p, cfg) :: pc') = (p.token, serializeEntry cfg) :: serializeRaw pc' :=
  rfl

/-- Decoding the serialization of a well-formed map reproduces the map. -/
theorem visitMap_serialize : ∀ {pc : ProvidersConfig} (acc : ProvidersConfig),
    (∀ e ∈ pc, WFentry e) → (pc.map Prod.fst).Nodup →
    (∀ e ∈ pc, e.1 ∉ acc.map Prod.fst) →
    visitMap (serializeRaw pc) acc = .ok (acc ++ pc) := by
  intro pc
  induction pc with
  | nil =>
    intro acc _ _ _
    simp [serializeRaw, visitMap]
  | cons ec pc' ih =>
    intro acc hwf hnd hdisj
    obtain ⟨p, cfg⟩ := ec
    obtain ⟨htok0, hndm0, hrep0, hurl0⟩ := hwf (p, cfg) (List.mem_cons_self _ _)
    have htok : InferenceProvider.ofToken p.token = p := htok0
    have hndm : cfg.models.Nodup := hndm0
    have hrep : ∀ m ∈ cfg.models,
        ModelId.from_str_and_provider p (ModelId.format m) = .ok m := hrep0
    have hurl : parseUrl cfg.base_url = some cfg.base_url := hurl0
    have hmapnd : (cfg.models.map ModelId.format).Nodup := by
      refine List.Nodup.map_on ?_ hndm
      intro x hx y hy hxy
      have hxr := hrep x hx
      have hyr := hrep y hy
      rw [hxy] at hxr
      exact Except.ok.inj (hxr.symm.trans hyr)
    have hdedup1 : indexSetOfList (serializeEntry cfg).models = cfg.models.map ModelId.format := by
      show indexSetOfList (indexSetOfList (cfg.models.map ModelId.format)) = _
      rw [indexSetOfList_idem, indexSetOfList_of_nodup hmapnd]
    have hpm : parseModels (InferenceProvider.ofToken p.token)
        (indexSetOfList (serializeEntry cfg).models) = .ok cfg.models := by
      rw [hdedup1, htok]
      exact parseModels_of_forall₂ (forall₂_of_format cfg.models hrep)
    have hde : decodeEntry p.token (serializeEntry cfg) = .ok cfg := by
      have hstep := decodeEntry_ok_of (u := cfg.base_url) (r := serializeEntry cfg)
        hurl hpm
      rw [hstep, indexSetOfList_of_nodup hndm]
      rfl
    rw [serializeRaw_cons, visitMap_cons_ok (serializeRaw pc') acc hde, htok]
    have hnotin : ¬(acc.map Prod.fst).contains p = true :=
      fun hc => hdisj (p, cfg) (List.mem_cons_self _ _) (contains_iff.mp hc)
    rw [indexMapInsert_not_mem cfg hnotin]
    rw [List.map_cons, List.nodup_cons] at hnd
    obtain ⟨hknot, hnd'⟩ := hnd
    have hdisj' : ∀ e ∈ pc', e.1 ∉ (acc ++ [(p, cfg)]).map Prod.fst := by
      intro e he
      rw [List.map_append]
      intro hmem
      rcases List.mem_append.mp hmem with hm | hm
      · exact hdisj e (List.mem_cons_of_mem _ he) hm
      · have heq : e.1 = p := by simpa using hm
        have hmm : e.1 ∈ pc'.map Prod.fst := List.mem_map_of_mem Prod.fst he
        rw [heq] at hmm
        exact hknot hmm
    rw [ih (acc ++ [(p, cfg)]) (fun e he => hwf e (List.mem_cons_of_mem _ he)) hnd' hdisj']
    rw [List.append_assoc]
    rfl

/-- Success of an `Except` computation exposes the value. -/
theorem isOk_iff {ε α : Type} {x : Except ε α} : x.isOk = true ↔ ∃ a, x = .ok a := by
  cases x <;> simp [Except.isOk, Except.toBool]

/-- The wrapped model error contains the offending model string. -/
theorem modelErrMsg_contains_model (s : Str) (p : InferenceProvider) (e : ParseError) :
    containsSubB (modelErrMsg s p e) s = true := by
  unfold modelErrMsg
  simp only [List.append_assoc]
  exact containsSubB_sandwich _ _ _

/-- The wrapped model error contains the owning provider's token. -/
theorem modelErrMsg_contains_provider (s : Str) (p : InferenceProvider) (e : ParseError) :
    containsSubB (modelErrMsg s p e) p.token = true := by
  unfold modelErrMsg
  simp only [List.append_assoc]
  apply containsSubB_append_left
  apply containsSubB_append_left
  apply containsSubB_append_left
  exact containsSubB_of_startsWithB (startsWithB_append_self p.token _)

/-- The wrapped empty-name error contains the `EmptyModelName` variant name. -/
theorem modelErrMsg_contains_empty (s : Str) (p : InferenceProvider) :
    containsSubB (modelErrMsg s p .emptyModelName) (str "EmptyModelName") = true := by
  unfold modelErrMsg
  simp only [List.append_assoc]
  apply containsSubB_append_left
  apply containsSubB_append_left
  apply containsSubB_append_left
  apply containsSubB_append_left
  apply containsSubB_append_left
  decide

/-- A successfully decoded entry's models format back to the (duplicate-free)
input strings, in order. -/
theorem decodeEntry_models {tok : Str} {r : RawRecord} {cfg : GlobalProviderConfig}
    (h : decodeEntry tok r = .ok cfg) (hnd : r.models.Nodup) :
    cfg.models.map ModelId.format = r.models := by
  obtain ⟨u, ms, hu, hms, hcfg⟩ := decodeEntry_ok h
  subst hcfg
  rw [indexSetOfList_of_nodup hnd] at hms
  have hf := parseModels_forall₂ hms
  have hmap : ms.map ModelId.format = r.models := forall₂_map_format hf
  have hmsnd : ms.Nodup := List.Nodup.of_map ModelId.format (hmap ▸ hnd)
  show (indexSetOfList ms).map ModelId.format = r.models
  rw [indexSetOfList_of_nodup hmsnd]
  exact hmap

/-- Claim C1, counterexample: decoding the concrete input in which the
provider key `openai` appears twice SUCCEEDS, and the second occurrence's
record has silently replaced the first — `visit_map` inserts without any
duplicate-key check, so no `DuplicateProviderKey` error is ever produced,
contradicting the claim that such an input fails to decode. -/
theorem c1_duplicate_key_counterexample :
    decode dupKeyInput =
      .ok [(InferenceProvider.openai,
        ⟨[⟨InferenceProvider.openai, str "gpt-5", Version.implicitLatest⟩],
         str "https://b.com/", none⟩)] := by
  decide

/-- Claim C1, amended: for every provider token and every two records that
each decode successfully, decoding the input that lists the token twice
succeeds, and the resulting map holds the LAST occurrence's configuration
under the single key (silent overwrite, not a `DuplicateProviderKey` error). -/
theorem c1_duplicate_key_last_wins (tok : Str) (r1 r2 : RawRecord)
    (c1 c2 : GlobalProviderConfig)
    (h1 : decodeEntry tok r1 = .ok c1) (h2 : decodeEntry tok r2 = .ok c2) :
    decode [(tok, r1), (tok, r2)] = .ok [(InferenceProvider.ofToken tok, c2)] := by
  unfold decode
  rw [visitMap_cons_ok [(tok, r2)] [] h1]
  have hins1 : indexMapInsert [] (InferenceProvider.ofToken tok) c1 =
      [(InferenceProvider.ofToken tok, c1)] := rfl
  rw [hins1, visitMap_cons_ok [] [(InferenceProvider.ofToken tok, c1)] h2]
  have hc : ([(InferenceProvider.ofToken tok, c1)].map Prod.fst).contains
      (InferenceProvider.ofToken tok) = true := contains_iff.mpr (by simp)
  have hins2 : indexMapInsert [(InferenceProvider.ofToken tok, c1)]
      (InferenceProvider.ofToken tok) c2 = [(InferenceProvider.ofToken tok, c2)] := by
    unfold indexMapInsert
    rw [if_pos hc]
    simp
  rw [hins2]
  rfl

/-- Claim C1, witness for the amended statement at a concrete input. -/
theorem c1_duplicate_key_last_wins_witness :
    decode dupKeyInput =
      .ok [(InferenceProvider.ofToken (str "openai"),
        ⟨[⟨InferenceProvider.openai, str "gpt-5", Version.implicitLatest⟩],
         str "https://b.com/", none⟩)] :=
  c1_duplicate_key_last_wins (str "openai")
    ⟨[str "gpt-4"], str "https://a.com", none⟩
    ⟨[str "gpt-5"], str "https://b.com", none⟩
    ⟨[⟨InferenceProvider.openai, str "gpt-4", Version.implicitLatest⟩],
     str "https://a.com/", none⟩
    ⟨[⟨InferenceProvider.openai, str "gpt-5", Version.implicitLatest⟩],
     str "https://b.com/", none⟩
    (by decide) (by decide)

/-- Claim C5, counterexample: on the concrete input whose `base-url` is
`notaurl`, the decode fails, but with the URL deserializer's own error, which
is propagated unwrapped by `visit_map` (`map.next_value()?`) and does NOT
carry the offending provider `openai` — contradicting the claim that the
error is tagged with the provider. -/
theorem c5_invalid_url_counterexample :
    decode badUrlInput = .error (urlErrMsg (str "notaurl")) ∧
      containsSubB (urlErrMsg (str "notaurl")) (str "openai") = false ∧
      containsSubB (urlErrMsg (str "notaurl")) (str "notaurl") = true := by
  decide

/-- Claim C5, amended: for every input whose first failing entry has a
base-url that does not parse as an absolute URL, the whole decode fails with
the URL deserializer's decode error; that error carries the offending string,
but it is independent of (and not tagged with) the provider, since
`visit_map` propagates it unchanged. -/
theorem c5_invalid_url_error (pre : List (Str × RawRecord)) (tok : Str)
    (r : RawRecord) (post : List (Str × RawRecord)) (acc : ProvidersConfig)
    (hpre : decode pre = .ok acc) (hurl : parseUrl r.base_url = none) :
    decode (pre ++ (tok, r) :: post) = .error (urlErrMsg r.base_url) ∧
      containsSubB (urlErrMsg r.base_url) r.base_url = true := by
  constructor
  · unfold decode at hpre ⊢
    rw [visitMap_append_ok hpre ((tok, r) :: post)]
    exact visitMap_cons_error post acc (decodeEntry_url_error hurl)
  · unfold urlErrMsg
    simp only [List.append_assoc]
    exact containsSubB_sandwich _ _ _

/-- Claim C5, witness for the amended statement at a concrete input. -/
theorem c5_invalid_url_error_witness :
    decode ([] ++ (str "openai", ⟨[str "gpt-4"], str "notaurl", none⟩) :: []) =
        .error (urlErrMsg (str "notaurl")) ∧
      containsSubB (urlErrMsg (str "notaurl")) (str "notaurl") = true :=
  c5_invalid_url_error [] (str "openai") ⟨[str "gpt-4"], str "notaurl", none⟩ [] []
    (by decide) (by decide)

/-- Claim C6: decoding the concrete two-provider input of §8.6 succeeds and
yields exactly the expected map — `openai`'s models parse with base names
unchanged and Implicit-Latest versions and its version override is absent,
while `anthropic`'s model `claude-3-opus-20240229` parses to base name
`claude-3-opus` with the dated version `20240229` (2024-02-29, format
`%Y%m%d`) and its version override is the string `2023-06-01`. -/
theorem c6_concrete_scenario : decode sampleInput = .ok sampleExpected := by
  decide

/-- Claim C7: decoding the embedded default dataset succeeds (so the `.expect`
panic branch of `ProvidersConfig::default` is not taken) and yields the
non-empty default map. -/
theorem c7_default_dataset :
    decode providersYamlEmbedded = .ok defaultProvidersConfig ∧
      defaultProvidersConfig ≠ [] := by
  decide

/-- Claim C8: in the serialized record of any provider configuration, a
`version` field is emitted exactly when the optional version string is
present, and then it carries exactly that string
(`skip_serializing_if = "Option::is_none"`). -/
theorem c8_version_field_emission (cfg : GlobalProviderConfig) (fv : FieldVal) :
    (str "version", fv) ∈ emitFields (serializeEntry cfg) ↔
      ∃ v, cfg.version = some v ∧ fv = FieldVal.s v := by
  have hvm : ¬(str "version" = str "models") := by decide
  have hvb : ¬(str "version" = str "base-url") := by decide
  cases hv : cfg.version with
  | none => simp [emitFields, serializeEntry, hv, hvm, hvb]
  | some v => simp [emitFields, serializeEntry, hv, hvm, hvb]

/-- Claim C2: every `ProvidersConfig` produced by a successful decode, when
serialized by the custom `Serialize` impl and decoded again by the custom
`Deserialize` impl, decodes successfully to an equal `ProvidersConfig`; in
particular every contained model identifier formats to text that reparses,
under its provider, to an equal identifier. -/
theorem c2_encode_decode_roundtrip (input : List (Str × RawRecord))
    (pc : ProvidersConfig) (h : decode input = .ok pc) :
    decode (serializeRaw pc) = .ok pc := by
  have hwf : WFconfig pc := visitMap_WF h ⟨by simp, by simp⟩
  have hs := visitMap_serialize [] hwf.2 hwf.1 (by simp)
  unfold decode
  simpa using hs

/-- Claim C2, witness at the §8.6 input. -/
theorem c2_encode_decode_roundtrip_witness :
    decode (serializeRaw sampleExpected) = .ok sampleExpected :=
  c2_encode_decode_roundtrip sampleInput sampleExpected (by decide)

/-- Claim C3: for every successfully decoded input with distinct decoded
provider keys and duplicate-free model lists, the decoded map's entries
correspond one-to-one, in order, with the input entries — the provider keys
iterate in input order, and each provider's model set iterates in the order of
that provider's input model strings (formatting each decoded identifier gives
back the raw string at the same position). -/
theorem c3_order_preservation (input : List (Str × RawRecord)) (pc : ProvidersConfig)
    (h : decode input = .ok pc)
    (hkeys : (input.map (fun e => InferenceProvider.ofToken e.1)).Nodup)
    (hmods : ∀ e ∈ input, e.2.models.Nodup) :
    List.Forall₂ (fun e q => q.1 = InferenceProvider.ofToken e.1 ∧
      q.2.models.map ModelId.format = e.2.models) input pc := by
  obtain ⟨rest, hpc, hf⟩ := visitMap_entries h hkeys (by simp)
  have hrest : pc = rest := by simpa using hpc
  rw [hrest]
  clear hpc h hkeys hrest
  revert hmods
  induction hf with
  | nil => intro _; exact List.Forall₂.nil
  | cons hr _ ih =>
    intro hmods
    exact List.Forall₂.cons
      ⟨hr.1, decodeEntry_models hr.2 (hmods _ (List.mem_cons_self _ _))⟩
      (ih fun e he => hmods e (List.mem_cons_of_mem _ he))

/-- Claim C3, witness at the §8.6 input. -/
theorem c3_order_preservation_witness :
    List.Forall₂ (fun (e : Str × RawRecord) (q : InferenceProvider × GlobalProviderConfig) =>
      q.1 = InferenceProvider.ofToken e.1 ∧
      q.2.models.map ModelId.format = e.2.models) sampleInput sampleExpected :=
  c3_order_preservation sampleInput sampleExpected (by decide) (by decide) (by decide)

/-- Claim C4: when an entry's first failing model string is reached (all
earlier input decodes succeed, the entry's URL is valid, earlier model strings
of the entry parse), the WHOLE decode of the input — whatever follows — fails
with the wrapped model error, and that error contains both the owning
provider's token and the specific offending model string. -/
theorem c4_model_error_aborts (pre : List (Str × RawRecord)) (tok : Str)
    (r : RawRecord) (post : List (Str × RawRecord)) (acc : ProvidersConfig)
    (good : List Str) (s : Str) (tail : List Str) (pe : ParseError)
    (hpre : decode pre = .ok acc)
    (hu : (parseUrl r.base_url).isSome = true)
    (hsplit : indexSetOfList r.models = good ++ s :: tail)
    (hgood : ∀ g ∈ good,
      (ModelId.from_str_and_provider (InferenceProvider.ofToken tok) g).isOk = true)
    (hs : ModelId.from_str_and_provider (InferenceProvider.ofToken tok) s = .error pe) :
    decode (pre ++ (tok, r) :: post) =
        .error (modelErrMsg s (InferenceProvider.ofToken tok) pe) ∧
      containsSubB (modelErrMsg s (InferenceProvider.ofToken tok) pe)
        (InferenceProvider.ofToken tok).token = true ∧
      containsSubB (modelErrMsg s (InferenceProvider.ofToken tok) pe) s = true := by
  refine ⟨?_, modelErrMsg_contains_provider s (InferenceProvider.ofToken tok) pe,
    modelErrMsg_contains_model s (InferenceProvider.ofToken tok) pe⟩
  unfold decode at hpre ⊢
  rw [visitMap_append_ok hpre ((tok, r) :: post)]
  refine visitMap_cons_error post acc (decodeEntry_models_error hu ?_)
  rw [hsplit]
  exact parseModels_first_error good (fun g hg => isOk_iff.mp (hgood g hg)) hs tail

/-- Claim C4, witness: a concrete input whose second anthropic model string
carries the invalid calendar date `20240230`; the whole decode fails with the
wrapped error even though a further valid provider entry follows. -/
theorem c4_model_error_aborts_witness :
    decode ([] ++ (str "anthropic", badDateRecord) ::
        [(str "openai", ⟨[str "gpt-4"], str "https://api.openai.com", none⟩)]) =
      .error (modelErrMsg (str "claude-3-haiku-20240230")
        (InferenceProvider.ofToken (str "anthropic"))
        (ParseError.invalidVersionDate InferenceProvider.anthropic
          (str "claude-3-haiku-20240230") (str "20240230"))) :=
  (c4_model_error_aborts [] (str "anthropic") badDateRecord
    [(str "openai", ⟨[str "gpt-4"], str "https://api.openai.com", none⟩)] []
    [str "claude-3-opus-20240229"] (str "claude-3-haiku-20240230") []
    (ParseError.invalidVersionDate InferenceProvider.anthropic
      (str "claude-3-haiku-20240230") (str "20240230"))
    (by decide) (by decide) (by decide) (by decide) (by decide)).1

/-- Claim C9: when an entry's models list reaches the empty string (or any
string whose base name is empty after version-suffix stripping) as its first
failing model, the decode fails with the wrapped `EmptyModelName` error, whose
text names the owning provider and the `EmptyModelName` condition. -/
theorem c9_empty_model_name (pre : List (Str × RawRecord)) (tok : Str)
    (r : RawRecord) (post : List (Str × RawRecord)) (acc : ProvidersConfig)
    (good : List Str) (s : Str) (tail : List Str)
    (hpre : decode pre = .ok acc)
    (hu : (parseUrl r.base_url).isSome = true)
    (hsplit : indexSetOfList r.models = good ++ s :: tail)
    (hgood : ∀ g ∈ good,
      (ModelId.from_str_and_provider (InferenceProvider.ofToken tok) g).isOk = true)
    (hs : s = [] ∨ ModelId.from_str_and_provider (InferenceProvider.ofToken tok) s =
      .error .emptyModelName) :
    decode (pre ++ (tok, r) :: post) =
        .error (modelErrMsg s (InferenceProvider.ofToken tok) .emptyModelName) ∧
      containsSubB (modelErrMsg s (InferenceProvider.ofToken tok) .emptyModelName)
        (InferenceProvider.ofToken tok).token = true ∧
      containsSubB (modelErrMsg s (InferenceProvider.ofToken tok) .emptyModelName)
        (str "EmptyModelName") = true := by
  have hserr : ModelId.from_str_and_provider (InferenceProvider.ofToken tok) s =
      .error .emptyModelName := by
    rcases hs with rfl | h
    · exact from_str_nil _
    · exact h
  refine ⟨?_, modelErrMsg_contains_provider s (InferenceProvider.ofToken tok) _,
    modelErrMsg_contains_empty s (InferenceProvider.ofToken tok)⟩
  unfold decode at hpre ⊢
  rw [visitMap_append_ok hpre ((tok, r) :: post)]
  refine visitMap_cons_error post acc (decodeEntry_models_error hu ?_)
  rw [hsplit]
  exact parseModels_first_error good (fun g hg => isOk_iff.mp (hgood g hg)) hserr tail

/-- Claim C9, witness: the models list `[""]` for provider `openai`. -/
theorem c9_empty_model_name_witness :
    decode ([] ++ (str "openai", emptyModelRecord) :: []) =
      .error (modelErrMsg (str "") (InferenceProvider.ofToken (str "openai"))
        ParseError.emptyModelName) :=
  (c9_empty_model_name [] (str "openai") emptyModelRecord [] [] [] (str "") []
    (by decide) (by decide) (by decide) (by decide) (by decide)).1

/-- Collapsing an entry's model strings with `IndexSet` semantics before the
decode does not change the entry decode (the decode itself collapses first). -/
theorem decodeEntry_dedup (tok : Str) (r : RawRecord) :
    decodeEntry tok ⟨indexSetOfList r.models, r.base_url, r.version⟩ =
      decodeEntry tok r := by
  unfold decodeEntry
  simp only [indexSetOfList_idem]

/-- Collapsing every entry's model strings leaves the whole `visit_map` run
unchanged. -/
theorem visitMap_dedup : ∀ (input : List (Str × RawRecord)) (acc : ProvidersConfig),
    visitMap (input.map (fun e =>
      ((e.1 : Str), (⟨indexSetOfList e.2.models, e.2.base_url, e.2.version⟩ : RawRecord)))) acc =
      visitMap input acc := by
  intro input
  induction input with
  | nil => intro acc; rfl
  | cons er input' ih =>
    intro acc
    obtain ⟨tok, r⟩ := er
    have hmap : (((tok, r) :: input').map (fun e =>
        ((e.1 : Str), (⟨indexSetOfList e.2.models, e.2.base_url, e.2.version⟩ : RawRecord)))) =
      (tok, (⟨indexSetOfList r.models, r.base_url, r.version⟩ : RawRecord)) ::
        (input'.map (fun e =>
          ((e.1 : Str), (⟨indexSetOfList e.2.models, e.2.base_url, e.2.version⟩ : RawRecord)))) := rfl
    rw [hmap]
    cases hd : decodeEntry tok r with
    | error e =>
      rw [visitMap_cons_error _ acc ((decodeEntry_dedup tok r).trans hd),
        visitMap_cons_error input' acc hd]
    | ok cfg =>
      rw [visitMap_cons_ok _ acc ((decodeEntry_dedup tok r).trans hd),
        visitMap_cons_ok input' acc hd]
      exact ih _

/-- Claim C10: duplicate model strings within one provider's list are not a
decode error — collapsing them (`IndexSet` semantics) before the decode leaves
every decode unchanged, and in every successful decode (with distinct provider
keys) a model string occurring in a provider's list yields exactly one
identifier in that provider's decoded model set. -/
theorem c10_duplicate_model_strings :
    (∀ input : List (Str × RawRecord),
      decode (input.map (fun e =>
        ((e.1 : Str), (⟨indexSetOfList e.2.models, e.2.base_url, e.2.version⟩ : RawRecord)))) =
        decode input) ∧
    (∀ (input : List (Str × RawRecord)) (pc : ProvidersConfig) (tok : Str)
        (r : RawRecord) (s : Str) (m : ModelId),
      (input.map (fun e => InferenceProvider.ofToken e.1)).Nodup →
      decode input = .ok pc → (tok, r) ∈ input → s ∈ r.models →
      ModelId.from_str_and_provider (InferenceProvider.ofToken tok) s = .ok m →
      ∃ cfg, (InferenceProvider.ofToken tok, cfg) ∈ pc ∧ cfg.models.count m = 1) := by
  constructor
  · intro input
    unfold decode
    exact visitMap_dedup input []
  · intro input pc tok r s m hkeys h hmem hsmem hm
    obtain ⟨rest, hpc, hf⟩ := visitMap_entries h hkeys (by simp)
    have hpcr : pc = rest := by simpa using hpc
    obtain ⟨q, hq, hq1, hq2⟩ := forall₂_mem_left hf hmem
    obtain ⟨u, ms, _, hms, hcfg⟩ := decodeEntry_ok hq2
    have hsded : s ∈ indexSetOfList r.models := mem_indexSetOfList.mpr hsmem
    obtain ⟨m', hm'mem, hm'⟩ := forall₂_mem_left (parseModels_forall₂ hms) hsded
    have hmm : m' = m := Except.ok.inj (hm'.symm.trans hm)
    subst hmm
    refine ⟨q.2, ?_, ?_⟩
    · have hqpair : q = (InferenceProvider.ofToken tok, q.2) := by
        rw [← hq1]
      rw [hpcr, ← hqpair]
      exact hq
    · rw [hcfg]
      exact List.count_eq_one_of_mem (indexSetOfList_nodup ms)
        (mem_indexSetOfList.mpr hm'mem)

/-- Claim C10, witness: the list `["gpt-4", "gpt-4"]` decodes with exactly one
`gpt-4` identifier, and collapsing the duplicate changes nothing. -/
theorem c10_duplicate_model_strings_witness :
    (decode ([(str "openai", dupModelRecord)].map (fun e =>
        ((e.1 : Str), (⟨indexSetOfList e.2.models, e.2.base_url, e.2.version⟩ : RawRecord)))) =
      decode [(str "openai", dupModelRecord)]) ∧
    (∃ cfg, (InferenceProvider.ofToken (str "openai"), cfg) ∈
        ([(InferenceProvider.openai,
          ⟨[⟨InferenceProvider.openai, str "gpt-4", Version.implicitLatest⟩],
           str "https://a.com/", none⟩)] : ProvidersConfig) ∧
      cfg.models.count ⟨InferenceProvider.openai, str "gpt-4", Version.implicitLatest⟩ = 1) :=
  ⟨c10_duplicate_model_strings.1 [(str "openai", dupModelRecord)],
   c10_duplicate_model_strings.2 [(str "openai", dupModelRecord)]
    [(InferenceProvider.openai,
      ⟨[⟨InferenceProvider.openai, str "gpt-4", Version.implicitLatest⟩],
       str "https://a.com/", none⟩)]
    (str "openai") dupModelRecord (str "gpt-4")
    ⟨InferenceProvider.openai, str "gpt-4", Version.implicitLatest⟩
    (by decide) (by decide) (by decide) (by decide) (by decide)⟩

end AiGateway
